import Mathlib

/-!
Verification of the real-time stream-processing core of the StockTradingApp
repository: the `SlidingWindow` / `StockPriceWindow` classes
(src/utils/slidingWindow.ts), the binary-search utilities
(src/utils/binarySearch.ts) and the coalescing update scheduler
(src/utils/throttle.ts), shallowly embedded in Lean.

Modelling conventions:
- JavaScript arrays become `List`; in-place mutation becomes a returned value.
- JavaScript numbers used as indices, sizes and timestamps become `Int`
  (or `Nat` where the source value is always a nonnegative count);
  prices become `ℚ`.
- Strings become `List Char`; the `<`/`≤` comparisons on JS strings
  (UTF-16 code-unit lexicographic order) become the lexicographic order
  on `List Char`.
- A JS division whose denominator is zero produces a non-finite value
  (`Infinity`/`NaN`); a result that can be non-finite is modelled as an
  `Option`, `none` standing for any non-finite value.

Definitions come first (one subsection per source file), all theorems
follow at the end.
-/

/-! ### SlidingWindow (src/utils/slidingWindow.ts) -/

/-- State of the `SlidingWindow<T>` class: `data` is the private backing
array, `maxSize` the capacity stored by the constructor.  The constructor
performs no validation, so `maxSize` can be any JS number; it is modelled
as `Int`. -/
structure SlidingWindow (T : Type) where
  data : List T
  maxSize : Int
deriving DecidableEq

/-- The constructor `new SlidingWindow(maxSize = 100)`.  Its body is just
`this.maxSize = maxSize`; it cannot throw, so the fallible-construction view
of it always returns `some`.  (`none` would model a thrown construction
error; there is no code path producing it.) -/
def SlidingWindow.construct (T : Type) (maxSize : Int := 100) : Option (SlidingWindow T) :=
  some { data := [], maxSize := maxSize }

/-- The window produced by the constructor (the payload of
`SlidingWindow.construct`). -/
def SlidingWindow.new (T : Type) (maxSize : Int := 100) : SlidingWindow T :=
  { data := [], maxSize := maxSize }

/-- Follows the spec's words, for comparison with the source constructor:
"`capacity ≤ 0` is a construction-time contract violation (fails fast)",
so capacities `≤ 0` yield a construction error (`none`). -/
def SlidingWindow.constructChecked (T : Type) (maxSize : Int) : Option (SlidingWindow T) :=
  if maxSize ≤ 0 then none else some { data := [], maxSize := maxSize }

/-- `push(item)`: `this.data.push(item); if (this.data.length > this.maxSize)
this.data.shift();` — append at the tail, then drop the head if the length
now exceeds the capacity. -/
def SlidingWindow.push {T : Type} (w : SlidingWindow T) (item : T) : SlidingWindow T :=
  let d := w.data ++ [item]
  if (d.length : Int) > w.maxSize then { w with data := d.drop 1 }
  else { w with data := d }

/-- `pushMany(items)`: `items.forEach(item => this.push(item))`. -/
def SlidingWindow.pushMany {T : Type} (w : SlidingWindow T) (items : List T) : SlidingWindow T :=
  items.foldl SlidingWindow.push w

/-- `getAll()`: a copy of the contents (copying is the identity in this
pure model). -/
def SlidingWindow.getAll {T : Type} (w : SlidingWindow T) : List T :=
  w.data

/-- JavaScript `Array.prototype.slice(start)` with a single argument:
a negative `start` counts from the end of the array (clamped at 0); a
nonnegative `start` takes the suffix beginning at that index (empty when
`start` is at or beyond the end). -/
def jsArraySlice {T : Type} (l : List T) (start : Int) : List T :=
  if start < 0 then l.drop (l.length + start).toNat else l.drop start.toNat

/-- `getRecent(n)`: `this.data.slice(-n)`. -/
def SlidingWindow.getRecent {T : Type} (w : SlidingWindow T) (n : Int) : List T :=
  jsArraySlice w.data (-n)

/-- `getLatest()`: `this.data[this.data.length - 1]`, `undefined` on the
empty window. -/
def SlidingWindow.getLatest {T : Type} (w : SlidingWindow T) : Option T :=
  w.data.getLast?

/-- `size()`: `this.data.length`. -/
def SlidingWindow.size {T : Type} (w : SlidingWindow T) : Nat :=
  w.data.length

/-- `clear()`: `this.data = []`. -/
def SlidingWindow.clear {T : Type} (w : SlidingWindow T) : SlidingWindow T :=
  { w with data := [] }

/-- `isFull()`: `this.data.length >= this.maxSize`. -/
def SlidingWindow.isFull {T : Type} (w : SlidingWindow T) : Bool :=
  (w.data.length : Int) ≥ w.maxSize

/-! ### StockPriceWindow (src/utils/slidingWindow.ts) -/

/-- A point of the per-symbol price history (src/types/stock.ts
`StockDataPoint`): `timestamp` is a ms-epoch integer, `price` and `volume`
are JS numbers, modelled as rationals (resp. with `volume` kept rational
too, its exact type is irrelevant here). -/
structure StockDataPoint where
  timestamp : Int
  price : ℚ
  volume : ℚ
deriving DecidableEq

/-- `StockPriceWindow extends SlidingWindow<StockDataPoint>`; the subclass
adds no state, only derived accessors, so it is the same structure. -/
abbrev StockPriceWindow := SlidingWindow StockDataPoint

/-- `getPrices()`: `this.getAll().map(point => point.price)`. -/
def StockPriceWindow.getPrices (w : StockPriceWindow) : List ℚ :=
  w.getAll.map (fun point => point.price)

/-- `getTimestamps()`: `this.getAll().map(point => point.timestamp)`. -/
def StockPriceWindow.getTimestamps (w : StockPriceWindow) : List Int :=
  w.getAll.map (fun point => point.timestamp)

/-- The loop of `getLabels`: `for (let i = 0; i < all.length; i += step)`
push the formatted timestamp of `all[i]`.  `fmt` stands for the
locale/timezone-dependent `toLocaleTimeString` rendering, abstracted as an
arbitrary function of the timestamp.  `fuel` bounds the number of
iterations; the caller passes `all.length`, which suffices whenever
`step ≥ 1` (and `step = max 1 ⌊length/count⌋ ≥ 1` at the call site). -/
def labelLoop (all : List StockDataPoint) (fmt : Int → String) (step : Nat) :
    Nat → Nat → List String
  | 0, _ => []
  | fuel + 1, i =>
    if h : i < all.length then fmt (all[i]).timestamp :: labelLoop all fmt step fuel (i + step)
    else []

/-- `getLabels(count = 5)`: empty when the window is empty; otherwise
samples every `step = max(1, ⌊length/count⌋)`-th retained point's
timestamp, starting at index 0. -/
def StockPriceWindow.getLabels (w : StockPriceWindow) (fmt : Int → String)
    (count : Nat := 5) : List String :=
  let all := w.getAll
  if all.length = 0 then []
  else
    let step := max 1 (all.length / count)
    labelLoop all fmt step all.length 0

/-- Result record of `getPriceChange()`.  `changePercent` is an `Option`:
`none` models a non-finite JS number (`Infinity`/`NaN`). -/
structure PriceChangeResult where
  change : ℚ
  changePercent : Option ℚ
deriving DecidableEq

/-- JavaScript division of finite numbers: a zero denominator yields
`Infinity`, `-Infinity` or `NaN` — in every case non-finite, modelled as
`none`. -/
def jsDiv (a b : ℚ) : Option ℚ := if b = 0 then none else some (a / b)

/-- `getPriceChange()`: `{0, 0}` with fewer than 2 samples; otherwise
`change = newest.price - oldest.price` (oldest is `all[0]`, newest is
`all[all.length - 1]`) and `changePercent = (change / oldest.price) * 100`.
The two-step match is the `all.length < 2` test: the first sample is the
head, the newest is the last of the rest (present exactly when length ≥ 2). -/
def StockPriceWindow.getPriceChange (w : StockPriceWindow) : PriceChangeResult :=
  match w.getAll with
  | [] => { change := 0, changePercent := some 0 }
  | oldest :: rest =>
    match rest.getLast? with
    | none => { change := 0, changePercent := some 0 }
    | some newest =>
      let change := newest.price - oldest.price
      { change := change, changePercent := (jsDiv change oldest.price).map (fun q => q * 100) }

/-! ### Binary search (src/utils/binarySearch.ts) -/

/-- `String.prototype.toUpperCase`, modelled character-wise (faithful on
the ASCII ticker symbols this code compares). -/
def jsToUpper (s : List Char) : List Char := s.map Char.toUpper

/-- `String.prototype.toLowerCase`, modelled character-wise. -/
def jsToLower (s : List Char) : List Char := s.map Char.toLower

/-- The fields of `Stock` (src/types/stock.ts) that the search functions
read: `symbol`, `name` and `currentPrice`.  The remaining display fields
(previousPrice, change, volume, marketCap, …) are never consulted by
src/utils/binarySearch.ts, so they are omitted from the embedding. -/
structure Stock where
  symbol : List Char
  name : List Char
  currentPrice : ℚ
deriving DecidableEq

/-- The `while (left <= right)` loop of `binarySearchBySymbol`:
`mid = Math.floor((left + right) / 2)` is flooring division (`Int.fdiv`);
the comparisons are JS string `===`/`<` on the upper-cased symbol.  The JS
read `stocks[mid]` is modelled through `stocks[mid.toNat]?`; its `none`
(out-of-range) arm is dead code, because the caller maintains
`0 ≤ left ≤ mid ≤ right < stocks.length`.  `fuel` bounds the number of
iterations; the caller passes `stocks.length`, enough because the window
`right - left + 1` starts at `stocks.length` and shrinks at every
iteration. -/
def bsSymbolGo (stocks : List Stock) (target : List Char) :
    Nat → Int → Int → Option Stock
  | 0, _, _ => none
  | fuel + 1, left, right =>
    if left ≤ right then
      let mid := Int.fdiv (left + right) 2
      match stocks[mid.toNat]? with
      | none => none
      | some s =>
        if jsToUpper s.symbol = target then some s
        else if jsToUpper s.symbol < target then bsSymbolGo stocks target fuel (mid + 1) right
        else bsSymbolGo stocks target fuel left (mid - 1)
    else none

/-- `binarySearchBySymbol(stocks, symbol)`: binary search on
`left = 0`, `right = stocks.length - 1` for the upper-cased query. -/
def binarySearchBySymbol (stocks : List Stock) (symbol : List Char) : Option Stock :=
  bsSymbolGo stocks (jsToUpper symbol) stocks.length 0 ((stocks.length : Int) - 1)

/-- The first-match loop of `binarySearchByNamePrefix`: binary search for
the leftmost index whose lower-cased name starts with the (lower-cased)
query `p`, recording a candidate in `firstMatch` (initially the sentinel
`-1`) and continuing leftwards on a hit.  `midName.startsWith(p)` is the
prefix test `<+:`; `midName < p` is JS string `<`.  As in `bsSymbolGo`,
`mid = Math.floor((left + right) / 2)` is `Int.fdiv`, the out-of-range arm
of `stocks[mid.toNat]?` is dead code under `0 ≤ left ≤ right <
stocks.length`, and `fuel` (the caller passes `stocks.length`) bounds the
iterations of the shrinking window. -/
def bsPrefixGo (stocks : List Stock) (p : List Char) :
    Nat → Int → Int → Int → Int
  | 0, _, _, firstMatch => firstMatch
  | fuel + 1, left, right, firstMatch =>
    if left ≤ right then
      let mid := Int.fdiv (left + right) 2
      match stocks[mid.toNat]? with
      | none => firstMatch
      | some s =>
        if p <+: jsToLower s.name then bsPrefixGo stocks p fuel left (mid - 1) mid
        else if jsToLower s.name < p then bsPrefixGo stocks p fuel (mid + 1) right firstMatch
        else bsPrefixGo stocks p fuel left (mid - 1) firstMatch
    else firstMatch

/-- `binarySearchByNamePrefix(stocks, prefix)`: the guard
`!prefix || stocks.length === 0` returns the input unchanged (the empty JS
string is falsy); otherwise the leftmost match is located by binary search
and, if one exists, the contiguous run of matches is collected from it (the
`for` loop with `break` is `takeWhile`); no match yields `[]`. -/
def binarySearchByNamePrefix (stocks : List Stock) (pre : List Char) : List Stock :=
  if pre = [] ∨ stocks = [] then stocks
  else
    let p := jsToLower pre
    let firstMatch := bsPrefixGo stocks p stocks.length 0 ((stocks.length : Int) - 1) (-1)
    if firstMatch = -1 then []
    else (stocks.drop firstMatch.toNat).takeWhile (fun s => decide (p <+: jsToLower s.name))

/-- The `sortBy` selector of `findInsertionPoint` (TS union
`'symbol' | 'name' | 'price'`). -/
inductive SortBy
  | symbol
  | name
  | price

/-- `String.prototype.localeCompare` as this code uses it (only its sign
matters): modelled as the sign of the code-point lexicographic comparison,
abstracting from locale-specific collation. -/
def localeCompare (a b : List Char) : ℚ :=
  if a < b then -1 else if b < a then 1 else 0

/-- The `switch (sortBy)` comparison of `findInsertionPoint`:
symbol and name compare through `localeCompare`, price through numeric
subtraction.  The JS `default` arm repeats the symbol comparison and is
unreachable, since the TS union has exactly these three values. -/
def stockCompare (sortBy : SortBy) (a b : Stock) : ℚ :=
  match sortBy with
  | SortBy.symbol => localeCompare a.symbol b.symbol
  | SortBy.name => localeCompare a.name b.name
  | SortBy.price => a.currentPrice - b.currentPrice

/-- The `while (left < right)` loop of `findInsertionPoint`; here both
bounds are nonnegative throughout (`left` starts at 0 and `right` at
`stocks.length`), so the indices are `Nat` and
`mid = Math.floor((left + right) / 2)` is `Nat` division.  The JS read
`stocks[mid]` is in range because `mid < right ≤ stocks.length`; the
`none` arm is dead code.  `fuel` (the caller passes `stocks.length`)
bounds the iterations of the shrinking window. -/
def fipGo (stocks : List Stock) (stock : Stock) (sortBy : SortBy) :
    Nat → Nat → Nat → Nat
  | 0, left, _ => left
  | fuel + 1, left, right =>
    if left < right then
      let mid := (left + right) / 2
      let comparison : ℚ := match stocks[mid]? with
        | some s => stockCompare sortBy stock s
        | none => 0
      if comparison < 0 then fipGo stocks stock sortBy fuel left mid
      else fipGo stocks stock sortBy fuel (mid + 1) right
    else left

/-- `findInsertionPoint(stocks, stock, sortBy = 'symbol')`: lower/upper
bounds start at `0` and `stocks.length`. -/
def findInsertionPoint (stocks : List Stock) (stock : Stock)
    (sortBy : SortBy := SortBy.symbol) : Nat :=
  fipGo stocks stock sortBy stocks.length 0 stocks.length

/-! ### Coalescing update scheduler (src/utils/throttle.ts) -/

/-- JavaScript `Map.prototype.set` on an insertion-ordered association
list: an existing key keeps its position and receives the new value, a new
key is appended at the end. -/
def mapSet {V : Type} (m : List (String × V)) (k : String) (v : V) : List (String × V) :=
  if m.any (fun e => decide (e.1 = k)) then m.map (fun e => if e.1 = k then (k, v) else e)
  else m ++ [(k, v)]

/-- JavaScript `Map.prototype.get` on the insertion-ordered association
list (keys are unique by construction through `mapSet`). -/
def mapGet {V : Type} (m : List (String × V)) (k : String) : Option V :=
  (m.find? (fun e => decide (e.1 = k))).map (fun e => e.2)

/-- The state captured by the closure `createThrottledUpdater` returns:
the pending batch `pendingUpdates` (a JS `Map`, modelled as an
insertion-ordered association list), the `isScheduled` flag, and the fire
time of the armed `setTimeout` when one is armed (`none` when idle). -/
structure ThrottledUpdater (V : Type) where
  pendingUpdates : List (String × V)
  isScheduled : Bool
  timerDeadline : Option Nat
deriving DecidableEq

/-- The state right after `createThrottledUpdater(updateFn, throttleMs)`
(default interval 250): empty batch, no timer armed. -/
def ThrottledUpdater.initial (V : Type) : ThrottledUpdater V :=
  { pendingUpdates := [], isScheduled := false, timerDeadline := none }

/-- The returned closure `(key, value) => { pendingUpdates.set(key, value);
if (!isScheduled) { isScheduled = true; setTimeout(…, throttleMs); } }`,
invoked at time `now`: the pending value for `key` is overwritten
(last-write-wins) and a timer firing at `now + throttleMs` is armed only
when none is scheduled — an already-armed timer is neither re-armed nor
extended. -/
def ThrottledUpdater.record {V : Type} (throttleMs now : Nat) (key : String) (value : V)
    (s : ThrottledUpdater V) : ThrottledUpdater V :=
  let pending := mapSet s.pendingUpdates key value
  if s.isScheduled then { s with pendingUpdates := pending }
  else { pendingUpdates := pending, isScheduled := true,
         timerDeadline := some (now + throttleMs) }

/-- The body of the armed `setTimeout` firing: snapshot the batch
(`const updates = new Map(pendingUpdates)`), clear the pending map, reset
`isScheduled`, and call `updateFn(updates)` — modelled by returning the
delivered batch alongside the successor state. -/
def ThrottledUpdater.fire {V : Type} (s : ThrottledUpdater V) :
    List (String × V) × ThrottledUpdater V :=
  (s.pendingUpdates,
   { pendingUpdates := [], isScheduled := false, timerDeadline := none })

/-! ### Theorems -/

/-- `push` changes the length to `length + 1` when the capacity is not yet
exceeded and keeps it otherwise; in both cases a bound `length ≤ c` with
`c = maxSize` is preserved. -/
theorem SlidingWindow.size_push_le {T : Type} (w : SlidingWindow T) (item : T)
    (hle : (w.size : Int) ≤ w.maxSize) : ((w.push item).size : Int) ≤ w.maxSize := by
  simp only [SlidingWindow.push, SlidingWindow.size] at *
  split
  next h =>
    simp only [List.length_drop, List.length_append, List.length_cons, List.length_nil] at h ⊢
    push_cast at h ⊢
    omega
  next h =>
    simp only [List.length_drop, List.length_append, List.length_cons, List.length_nil] at h ⊢
    push_cast at h ⊢
    omega

/-- `push` never changes `maxSize`. -/
theorem SlidingWindow.maxSize_push {T : Type} (w : SlidingWindow T) (item : T) :
    (w.push item).maxSize = w.maxSize := by
  simp only [SlidingWindow.push]
  split <;> rfl

/-- Auxiliary invariant: any window whose size is within its capacity stays
within its capacity under any sequence of pushes. -/
theorem SlidingWindow.size_pushMany_le {T : Type} (pushes : List T) (w : SlidingWindow T)
    (hle : (w.size : Int) ≤ w.maxSize) :
    ((w.pushMany pushes).size : Int) ≤ (w.pushMany pushes).maxSize ∧
      (w.pushMany pushes).maxSize = w.maxSize := by
  induction pushes generalizing w with
  | nil => exact ⟨hle, rfl⟩
  | cons x xs ih =>
      have h1 := SlidingWindow.size_push_le w x hle
      have h2 := SlidingWindow.maxSize_push w x
      have := ih (w.push x) (h2 ▸ h1)
      simpa [SlidingWindow.pushMany, h2] using this

/-- C1: for every capacity `c > 0`, (a) after any sequence of pushes into a
fresh window of capacity `c` the size is at most `c`; (b) whenever the size
equals the capacity, a push drops exactly the oldest element and appends the
new one at the tail, keeping the order of the rest; (c) with capacity 3,
pushing 1,2,3,4 leaves `[2,3,4]`. -/
theorem slidingWindow_bounded_and_evicts_oldest {T : Type} (c : Int) (hc : 0 < c) :
    (∀ pushes : List T, (((SlidingWindow.new T c).pushMany pushes).size : Int) ≤ c) ∧
    (∀ (w : SlidingWindow T) (item : T), w.maxSize = c → (w.size : Int) = c →
      (w.push item).data = w.data.tail ++ [item]) ∧
    ((SlidingWindow.new ℕ 3).pushMany [1, 2, 3, 4]).getAll = [2, 3, 4] := by
  refine ⟨fun pushes => ?_, fun w item hmax hsize => ?_, by decide⟩
  · have h0 : ((SlidingWindow.new T c).size : Int) ≤ (SlidingWindow.new T c).maxSize := by
      simp [SlidingWindow.new, SlidingWindow.size]
      omega
    have h := SlidingWindow.size_pushMany_le pushes (SlidingWindow.new T c) h0
    have hm : (SlidingWindow.new T c).maxSize = c := rfl
    omega
  · have hlen : ((w.data ++ [item]).length : Int) > w.maxSize := by
      simp only [List.length_append, List.length_cons, List.length_nil]
      have : (w.data.length : Int) = c := hsize
      push_cast
      omega
    simp only [SlidingWindow.push, hlen, if_pos]
    rw [List.drop_append_of_le_length, List.drop_one]
    have : (w.data.length : Int) = c := hsize
    omega

/-- Witness for C1 at capacity 3 and pushes 1,2,3,4. -/
theorem slidingWindow_bounded_and_evicts_oldest_witness :
    (0 : Int) < 3 ∧ (((SlidingWindow.new ℕ 3).pushMany [1, 2, 3, 4]).size : Int) ≤ 3 :=
  ⟨by decide, (slidingWindow_bounded_and_evicts_oldest (T := ℕ) 3 (by decide)).1 [1, 2, 3, 4]⟩

/-- C10: the constructor accepts any `maxSize ≤ 0` without error, and the
resulting window stays empty under every sequence of pushes: the size is 0,
`getAll` is empty and `getLatest` is absent. -/
theorem slidingWindow_nonpositive_capacity_stays_empty {T : Type} (m : Int) (hm : m ≤ 0) :
    SlidingWindow.construct T m ≠ none ∧
    ∀ pushes : List T,
      ((SlidingWindow.new T m).pushMany pushes).size = 0 ∧
      ((SlidingWindow.new T m).pushMany pushes).getAll = [] ∧
      ((SlidingWindow.new T m).pushMany pushes).getLatest = none := by
  have key : ∀ pushes : List T, (SlidingWindow.new T m).pushMany pushes = SlidingWindow.new T m := by
    intro pushes
    induction pushes with
    | nil => rfl
    | cons x xs ih =>
        have hstep : (SlidingWindow.new T m).push x = SlidingWindow.new T m := by
          simp only [SlidingWindow.push, SlidingWindow.new]
          have : ((([] : List T) ++ [x]).length : Int) > m := by
            simp
            omega
          rw [if_pos this]
          simp
        calc (SlidingWindow.new T m).pushMany (x :: xs)
            = ((SlidingWindow.new T m).push x).pushMany xs := rfl
          _ = (SlidingWindow.new T m).pushMany xs := by rw [hstep]
          _ = SlidingWindow.new T m := ih
  refine ⟨by simp [SlidingWindow.construct], fun pushes => ?_⟩
  rw [key]
  exact ⟨rfl, rfl, rfl⟩

/-- Witness for C10 at capacity 0 and pushes 7,8,9. -/
theorem slidingWindow_nonpositive_capacity_stays_empty_witness :
    (0 : Int) ≤ 0 ∧ ((SlidingWindow.new ℕ 0).pushMany [7, 8, 9]).size = 0 :=
  ⟨by decide,
    ((slidingWindow_nonpositive_capacity_stays_empty (T := ℕ) 0 (by decide)).2 [7, 8, 9]).1⟩

/-- C7, counterexample: constructing a window with capacity 0 does not fail
fast — the source constructor returns a normal instance where the spec's
checked constructor demands a construction error. -/
theorem slidingWindow_construct_zero_succeeds :
    SlidingWindow.construct ℕ 0 = some (SlidingWindow.new ℕ 0) ∧
    SlidingWindow.constructChecked ℕ 0 = none ∧
    SlidingWindow.construct ℕ 0 ≠ SlidingWindow.constructChecked ℕ 0 := by
  refine ⟨rfl, rfl, ?_⟩
  simp [SlidingWindow.construct, SlidingWindow.constructChecked]

/-- C7, amended: construction never fails for any capacity (the constructor
performs no validation), and it agrees with the spec's fail-fast checked
constructor exactly on the positive capacities. -/
theorem slidingWindow_construct_never_fails {T : Type} :
    ∀ maxSize : Int, (SlidingWindow.construct T maxSize).isSome = true ∧
      (SlidingWindow.construct T maxSize = SlidingWindow.constructChecked T maxSize ↔
        0 < maxSize) := by
  intro m
  refine ⟨rfl, ?_⟩
  unfold SlidingWindow.construct SlidingWindow.constructChecked
  constructor
  · intro h
    by_contra hpos
    rw [if_pos (by omega)] at h
    exact Option.some_ne_none _ h
  · intro h
    rw [if_neg (by omega)]

/-- C5, counterexample: `getRecent(0)` returns the whole contents, not the
empty sequence, because `slice(-0)` is `slice(0)`. -/
theorem slidingWindow_getRecent_zero_not_empty :
    ((SlidingWindow.new ℕ 5).pushMany [1, 2, 3]).getRecent 0 = [1, 2, 3] ∧
    ((SlidingWindow.new ℕ 5).pushMany [1, 2, 3]).getRecent 0 ≠ [] := by
  decide

/-- C5, amended: `getRecent(n)` is `data.slice(-n)`: for `n > 0` it is the
last `min(n, size)` retained elements oldest-first; for `n = 0` it is the
whole contents; for `n < 0` it is the suffix starting at index
`min(-n, size)` (dropping the first `-n` elements), not the empty sequence. -/
theorem slidingWindow_getRecent_slice {T : Type} (w : SlidingWindow T) (n : Int) :
    (0 < n → w.getRecent n = w.data.drop (w.data.length - n.toNat)) ∧
    (n = 0 → w.getRecent n = w.data) ∧
    (n < 0 → w.getRecent n = w.data.drop (-n).toNat) := by
  unfold SlidingWindow.getRecent jsArraySlice
  refine ⟨fun hpos => ?_, fun hzero => ?_, fun hneg => ?_⟩
  · rw [if_pos (by omega)]
    congr 1
    omega
  · subst hzero
    norm_num
  · rw [if_neg (by omega)]

/-- Witness for C5 on the window `[1,2,3]` at `n = 2`, `n = 0` and `n = -1`. -/
theorem slidingWindow_getRecent_slice_witness :
    ((⟨[1, 2, 3], 5⟩ : SlidingWindow ℕ).getRecent 2 = [2, 3]) ∧
    ((⟨[1, 2, 3], 5⟩ : SlidingWindow ℕ).getRecent 0 = [1, 2, 3]) ∧
    ((⟨[1, 2, 3], 5⟩ : SlidingWindow ℕ).getRecent (-1) = [2, 3]) :=
  ⟨((slidingWindow_getRecent_slice (⟨[1, 2, 3], 5⟩ : SlidingWindow ℕ) 2).1 (by decide)).trans
      (by decide),
   (slidingWindow_getRecent_slice (⟨[1, 2, 3], 5⟩ : SlidingWindow ℕ) 0).2.1 rfl,
   ((slidingWindow_getRecent_slice (⟨[1, 2, 3], 5⟩ : SlidingWindow ℕ) (-1)).2.2 (by decide)).trans
      (by decide)⟩

/-- The loop of `getLabels` visits exactly the indices `i, i + step,
i + 2·step, …` that are below `all.length`: the `j`-th produced label is
the formatted timestamp of `all[i + j·step]`. -/
theorem labelLoop_getElem? (all : List StockDataPoint) (fmt : Int → String) (step : Nat)
    (hstep : 0 < step) :
    ∀ (fuel i : Nat), all.length - i ≤ fuel → ∀ j : Nat,
      (labelLoop all fmt step fuel i)[j]? =
        (all[i + j * step]?).map (fun pt => fmt pt.timestamp) := by
  intro fuel
  induction fuel with
  | zero =>
      intro i hfuel j
      have hge : all.length ≤ i := by omega
      have : all.length ≤ i + j * step := by omega
      rw [List.getElem?_eq_none this]
      rfl
  | succ fuel ih =>
      intro i hfuel j
      unfold labelLoop
      by_cases h : i < all.length
      · rw [dif_pos h]
        cases j with
        | zero =>
            simp [List.getElem?_eq_getElem h]
        | succ j' =>
            rw [List.getElem?_cons_succ, ih (i + step) (by omega) j']
            congr 2
            ring
      · rw [dif_neg h]
        have : all.length ≤ i + j * step := by omega
        rw [List.getElem?_eq_none this]
        rfl

/-- C6, counterexample: a series of 5 retained samples asked for
`count = 2` labels produces 3 labels (stride `max(1, ⌊5/2⌋) = 2` visits
indices 0, 2, 4), exceeding `count`. -/
theorem getLabels_count_exceeded :
    (StockPriceWindow.getLabels
        ⟨[⟨0, 1, 0⟩, ⟨1, 1, 0⟩, ⟨2, 1, 0⟩, ⟨3, 1, 0⟩, ⟨4, 1, 0⟩], 10⟩
        (fun _ => "L") 2).length = 3 ∧ ¬ (3 ≤ 2) := by
  constructor
  · rfl
  · decide

/-- C6, amended: for every `count ≥ 1`, `getLabels(count)` samples the
retained timestamps at stride `step = max(1, ⌊length/count⌋)`: its `j`-th
label is the formatted timestamp of the sample at index `j·step` (so it has
`⌈length/step⌉` labels — possibly more than `count` — and is empty exactly
when the series is empty). -/
theorem getLabels_strided (w : StockPriceWindow) (fmt : Int → String) (count : Nat)
    (hc : 1 ≤ count) :
    ∀ j : Nat, (StockPriceWindow.getLabels w fmt count)[j]? =
      (w.getAll[j * max 1 (w.getAll.length / count)]?).map (fun pt => fmt pt.timestamp) := by
  intro j
  unfold StockPriceWindow.getLabels
  by_cases h0 : w.getAll.length = 0
  · rw [if_pos h0]
    have : w.getAll.length ≤ j * max 1 (w.getAll.length / count) := by omega
    rw [List.getElem?_eq_none this]
    rfl
  · rw [if_neg h0]
    have hstep : 0 < max 1 (w.getAll.length / count) := by omega
    have := labelLoop_getElem? w.getAll fmt (max 1 (w.getAll.length / count)) hstep
      w.getAll.length 0 (by omega) j
    simpa using this

/-- Witness for C6: a 3-sample series with `count = 5` has stride 1; label 1
is the formatted timestamp of sample 1. -/
theorem getLabels_strided_witness :
    1 ≤ 5 ∧
    (StockPriceWindow.getLabels ⟨[⟨10, 1, 0⟩, ⟨20, 2, 0⟩, ⟨30, 3, 0⟩], 10⟩
        (fun t => toString t) 5)[1]? = some (toString (20 : Int)) :=
  ⟨by decide,
    by
      have := getLabels_strided ⟨[⟨10, 1, 0⟩, ⟨20, 2, 0⟩, ⟨30, 3, 0⟩], 10⟩
        (fun t => toString t) 5 (by decide) 1
      rw [this]
      rfl⟩

/-- C8, counterexample: with two retained samples whose oldest price is 0,
`getPriceChange` divides by the zero base: `changePercent` is the non-finite
`Infinity` (modelled `none`), not 0, while `change` is the newest price. -/
theorem getPriceChange_zero_base_not_zero :
    (StockPriceWindow.getPriceChange ⟨[⟨0, 0, 0⟩, ⟨1, 10, 0⟩], 10⟩).changePercent ≠ some 0 ∧
    (StockPriceWindow.getPriceChange ⟨[⟨0, 0, 0⟩, ⟨1, 10, 0⟩], 10⟩).changePercent = none ∧
    (StockPriceWindow.getPriceChange ⟨[⟨0, 0, 0⟩, ⟨1, 10, 0⟩], 10⟩).change = 10 := by
  refine ⟨?_, rfl, ?_⟩
  · intro h
    simpa [StockPriceWindow.getPriceChange, SlidingWindow.getAll, jsDiv] using h
  · show (10 : ℚ) - 0 = 10
    norm_num

/-- C8, amended: for every series with at least 2 retained samples whose
oldest retained price is 0, `getPriceChange()` returns a non-finite
`changePercent` (`Infinity`/`NaN` from the division by the zero base,
modelled as `none`) rather than 0. -/
theorem getPriceChange_zero_base_not_finite (w : StockPriceWindow)
    (h2 : 2 ≤ w.getAll.length) (h0 : w.getAll.head?.map (fun pt => pt.price) = some 0) :
    (StockPriceWindow.getPriceChange w).changePercent = none := by
  obtain ⟨oldest, rest, hall⟩ : ∃ a l, w.getAll = a :: l := by
    match h : w.getAll with
    | [] => rw [h] at h2; simp at h2
    | a :: l => exact ⟨a, l, rfl⟩
  obtain ⟨newest, hrest⟩ : ∃ x, rest.getLast? = some x := by
    cases hr : rest.getLast? with
    | some x => exact ⟨x, rfl⟩
    | none =>
        rw [List.getLast?_eq_none_iff] at hr
        subst hr
        rw [hall] at h2
        simp at h2
  rw [hall] at h0
  simp only [List.head?_cons, Option.map_some', Option.some.injEq] at h0
  unfold StockPriceWindow.getPriceChange
  rw [hall]
  dsimp only
  rw [hrest]
  simp [jsDiv, h0]

/-- Witness for C8 on the two-sample series with base price 0. -/
theorem getPriceChange_zero_base_not_finite_witness :
    2 ≤ (⟨[⟨0, 0, 0⟩, ⟨1, 5, 0⟩], 10⟩ : StockPriceWindow).getAll.length ∧
    (StockPriceWindow.getPriceChange ⟨[⟨0, 0, 0⟩, ⟨1, 5, 0⟩], 10⟩).changePercent = none :=
  ⟨by decide,
    getPriceChange_zero_base_not_finite ⟨[⟨0, 0, 0⟩, ⟨1, 5, 0⟩], 10⟩ (by decide) rfl⟩

/-- Index form of strict sortedness by upper-cased symbol. -/
theorem sorted_symbol_lt {stocks : List Stock}
    (hs : stocks.Pairwise (fun a b => jsToUpper a.symbol < jsToUpper b.symbol))
    {i j : Nat} (hi : i < stocks.length) (hj : j < stocks.length) (hij : i < j) :
    jsToUpper (stocks[i]).symbol < jsToUpper (stocks[j]).symbol :=
  List.pairwise_iff_getElem.mp hs i j hi hj hij

/-- Soundness of the search loop: a returned entry is an element of the
list and its upper-cased symbol is the target. -/
theorem bsSymbolGo_mem {stocks : List Stock} {target : List Char} :
    ∀ (fuel : Nat) (left right : Int) (s : Stock),
      bsSymbolGo stocks target fuel left right = some s →
      s ∈ stocks ∧ jsToUpper s.symbol = target := by
  intro fuel
  induction fuel with
  | zero => intro left right s h; exact absurd h (by simp [bsSymbolGo])
  | succ fuel ih =>
      intro left right s h
      unfold bsSymbolGo at h
      by_cases hlr : left ≤ right
      · rw [if_pos hlr] at h
        simp only [] at h
        cases hget : stocks[(Int.fdiv (left + right) 2).toNat]? with
        | none => rw [hget] at h; exact absurd h (by simp)
        | some smid =>
            rw [hget] at h
            dsimp only at h
            by_cases heq : jsToUpper smid.symbol = target
            · rw [if_pos heq] at h
              cases h
              exact ⟨List.getElem?_mem hget, heq⟩
            · rw [if_neg heq] at h
              by_cases hlt : jsToUpper smid.symbol < target
              · rw [if_pos hlt] at h; exact ih _ _ _ h
              · rw [if_neg hlt] at h; exact ih _ _ _ h
      · rw [if_neg hlr] at h
        exact absurd h (by simp)

/-- Completeness of the search loop: if the matching index lies inside the
current window and the window fits in the fuel, the loop returns exactly
that entry. -/
theorem bsSymbolGo_finds {stocks : List Stock} {target : List Char}
    (hs : stocks.Pairwise (fun a b => jsToUpper a.symbol < jsToUpper b.symbol))
    {i : Nat} (hi : i < stocks.length) (hmatch : jsToUpper (stocks[i]).symbol = target) :
    ∀ (fuel : Nat) (left right : Int), 0 ≤ left → right < stocks.length →
      right - left + 1 ≤ (fuel : Int) →
      left ≤ (i : Int) → (i : Int) ≤ right →
      bsSymbolGo stocks target fuel left right = some stocks[i] := by
  intro fuel
  induction fuel with
  | zero => intro left right h0 hlen hf hli hir; exfalso; push_cast at hf; omega
  | succ fuel ih =>
      intro left right h0 hlen hf hli hir
      have hlr : left ≤ right := le_trans hli hir
      unfold bsSymbolGo
      rw [if_pos hlr]
      dsimp only
      have hfd : Int.fdiv (left + right) 2 = (left + right) / 2 :=
        Int.fdiv_eq_ediv _ (by norm_num)
      have hmb : left ≤ Int.fdiv (left + right) 2 ∧ Int.fdiv (left + right) 2 ≤ right := by
        rw [hfd]; omega
      have hmn : (Int.fdiv (left + right) 2).toNat < stocks.length := by omega
      rw [List.getElem?_eq_getElem hmn]
      dsimp only
      by_cases heq : jsToUpper (stocks[(Int.fdiv (left + right) 2).toNat]).symbol = target
      · rw [if_pos heq]
        have hieq : (Int.fdiv (left + right) 2).toNat = i := by
          by_contra hne
          rcases Nat.lt_or_ge (Int.fdiv (left + right) 2).toNat i with hlt2 | hge2
          · have := sorted_symbol_lt hs hmn hi hlt2
            rw [heq, hmatch] at this
            exact lt_irrefl _ this
          · have hgt2 : i < (Int.fdiv (left + right) 2).toNat := by omega
            have := sorted_symbol_lt hs hi hmn hgt2
            rw [heq, hmatch] at this
            exact lt_irrefl _ this
        subst hieq
        rfl
      · rw [if_neg heq]
        by_cases hlt : jsToUpper (stocks[(Int.fdiv (left + right) 2).toNat]).symbol < target
        · rw [if_pos hlt]
          have hgt : Int.fdiv (left + right) 2 < (i : Int) := by
            by_contra hle2
            push_neg at hle2
            have hle3 : i ≤ (Int.fdiv (left + right) 2).toNat := by omega
            rcases Nat.eq_or_lt_of_le hle3 with he | hl
            · exact heq (by subst he; exact hmatch)
            · have := sorted_symbol_lt hs hi hmn hl
              rw [hmatch] at this
              exact lt_irrefl _ (lt_trans this hlt)
          exact ih (Int.fdiv (left + right) 2 + 1) right (by omega) hlen
            (by push_cast at hf ⊢; omega) (by omega) hir
        · rw [if_neg hlt]
          have hgt : (i : Int) < Int.fdiv (left + right) 2 := by
            by_contra hle2
            push_neg at hle2
            have hle3 : (Int.fdiv (left + right) 2).toNat ≤ i := by omega
            rcases Nat.eq_or_lt_of_le hle3 with he | hl
            · exact heq (by subst he; exact hmatch)
            · have := sorted_symbol_lt hs hmn hi hl
              rw [hmatch] at this
              exact hlt this
          exact ih left (Int.fdiv (left + right) 2 - 1) h0 (by omega)
            (by push_cast at hf ⊢; omega) hli (by omega)

/-- C3: on a list sorted strictly by upper-cased symbol (hence with
pairwise-distinct keys), `binarySearchBySymbol` returns `some s` exactly
for the unique entry whose symbol equals the query case-insensitively; in
particular a query with no matching entry — and any query on the empty
list — returns `none`. -/
theorem binarySearchBySymbol_correct (stocks : List Stock) (q : List Char)
    (hs : stocks.Pairwise (fun a b => jsToUpper a.symbol < jsToUpper b.symbol)) :
    ∀ s : Stock, binarySearchBySymbol stocks q = some s ↔
      s ∈ stocks ∧ jsToUpper s.symbol = jsToUpper q := by
  intro s
  constructor
  · intro h
    exact bsSymbolGo_mem _ _ _ _ h
  · rintro ⟨hmem, hkey⟩
    obtain ⟨i, hi, rfl⟩ := List.mem_iff_getElem.mp hmem
    unfold binarySearchBySymbol
    exact bsSymbolGo_finds hs hi hkey stocks.length 0 ((stocks.length : Int) - 1)
      le_rfl (by omega) (by push_cast; omega) (by omega) (by omega)

/-- Witness for C3: the spec's example — the lower-case query `googl` on
the symbol-sorted list `[AAPL, AMZN, GOOGL, MSFT, TSLA]` finds GOOGL. -/
theorem binarySearchBySymbol_correct_witness :
    binarySearchBySymbol
        [⟨['A','A','P','L'], ['A'], 1⟩, ⟨['A','M','Z','N'], ['B'], 1⟩,
         ⟨['G','O','O','G','L'], ['C'], 1⟩, ⟨['M','S','F','T'], ['D'], 1⟩,
         ⟨['T','S','L','A'], ['E'], 1⟩]
        ['g','o','o','g','l'] = some ⟨['G','O','O','G','L'], ['C'], 1⟩ :=
  (binarySearchBySymbol_correct
      [⟨['A','A','P','L'], ['A'], 1⟩, ⟨['A','M','Z','N'], ['B'], 1⟩,
       ⟨['G','O','O','G','L'], ['C'], 1⟩, ⟨['M','S','F','T'], ['D'], 1⟩,
       ⟨['T','S','L','A'], ['E'], 1⟩]
      ['g','o','o','g','l'] (by decide) ⟨['G','O','O','G','L'], ['C'], 1⟩).mpr
    (by decide)

/-- A list is lexicographically below itself extended by a nonempty
suffix. -/
theorem lex_lt_append {α : Type} [LinearOrder α] (x : α) (t : List α) :
    ∀ l : List α, l < l ++ x :: t := by
  intro l
  induction l with
  | nil => exact List.Lex.nil
  | cons a l ih => exact List.Lex.cons ih

/-- A prefix is `≤` its extension in the lexicographic order. -/
theorem prefix_lex_le {α : Type} [LinearOrder α] {p s : List α} (h : p <+: s) : p ≤ s := by
  obtain ⟨t, rfl⟩ := h
  cases t with
  | nil => simp
  | cons x t' => exact le_of_lt (lex_lt_append x t' p)

/-- If `p` is not a prefix of `m` yet `p < m`, the first difference between
`p` and `m` occurs inside `p`, so every extension of `p` is still below
`m`. -/
theorem lex_lt_of_extension {α : Type} [LinearOrder α] :
    ∀ {p m s : List α}, ¬ (p <+: m) → p < m → p <+: s → s < m := by
  intro p
  induction p with
  | nil => intro m s hnp _ _; exact absurd ⟨m, rfl⟩ hnp
  | cons a p' ih =>
      intro m s hnp hlt hps
      cases m with
      | nil => exact absurd hlt (List.Lex.not_nil_right _ _)
      | cons b m' =>
          obtain ⟨t, rfl⟩ := hps
          cases hlt with
          | rel hab => exact List.Lex.rel hab
          | cons hpm' =>
              have hnp' : ¬ (p' <+: m') := by
                intro hc
                obtain ⟨u, hu⟩ := hc
                exact hnp ⟨u, by rw [List.cons_append, hu]⟩
              exact List.Lex.cons (ih hnp' hpm' ⟨t, rfl⟩)

/-- On a list where "satisfies `q` later implies satisfies `q` earlier"
holds pairwise, `filter` and `takeWhile` agree. -/
theorem filter_eq_takeWhile_of_pairwise {α : Type} {q : α → Bool} :
    ∀ {m : List α}, m.Pairwise (fun a b => q b = true → q a = true) →
      m.filter q = m.takeWhile q := by
  intro m
  induction m with
  | nil => intro _; rfl
  | cons x m' ih =>
      intro hp
      rw [List.pairwise_cons] at hp
      by_cases hx : q x
      · rw [List.filter_cons, List.takeWhile_cons, if_pos hx, if_pos hx, ih hp.2]
      · have hnil : m'.filter q = [] := by
          rw [List.filter_eq_nil_iff]
          intro a ha hqa
          exact hx (hp.1 a ha hqa)
        rw [List.filter_cons, List.takeWhile_cons, if_neg hx, if_neg hx, hnil]

/-- Index form of sortedness by lower-cased name. -/
theorem sorted_name_le {stocks : List Stock}
    (hs : stocks.Pairwise (fun a b => jsToLower a.name ≤ jsToLower b.name))
    {i j : Nat} (hi : i < stocks.length) (hj : j < stocks.length) (hij : i ≤ j) :
    jsToLower (stocks[i]).name ≤ jsToLower (stocks[j]).name := by
  rcases Nat.eq_or_lt_of_le hij with rfl | hlt
  · exact le_rfl
  · exact List.pairwise_iff_getElem.mp hs i j hi hj hlt

/-- Exit reasoning shared by the terminating branches of the first-match
loop: when the window is empty, the invariants pin `firstMatch` down as
either the sentinel with no match anywhere, or the index of the leftmost
match. -/
theorem bsPrefixExit {stocks : List Stock} {p : List Char} {left right fm : Int}
    (hlr : right < left)
    (inv1 : ∀ (k : Nat) (hk : k < stocks.length), (k : Int) < left →
      ¬ (p <+: jsToLower (stocks[k]).name))
    (inv2 : ∀ (k : Nat) (hk : k < stocks.length), right < (k : Int) →
      (p <+: jsToLower (stocks[k]).name) → 0 ≤ fm ∧ fm ≤ (k : Int))
    (inv3 : fm = -1 ∨ (0 ≤ fm ∧ fm < (stocks.length : Int) ∧
      ∃ s, stocks[fm.toNat]? = some s ∧ p <+: jsToLower s.name)) :
    (fm = -1 ∧ ∀ (k : Nat) (hk : k < stocks.length), ¬ (p <+: jsToLower (stocks[k]).name)) ∨
    (0 ≤ fm ∧ fm < (stocks.length : Int) ∧
      (∃ s, stocks[fm.toNat]? = some s ∧ p <+: jsToLower s.name) ∧
      ∀ (k : Nat) (hk : k < stocks.length), (p <+: jsToLower (stocks[k]).name) → fm ≤ (k : Int)) := by
  rcases inv3 with hfm | ⟨h0, hlen, hsome⟩
  · left
    refine ⟨hfm, fun k hk hPk => ?_⟩
    by_cases hkl : (k : Int) < left
    · exact inv1 k hk hkl hPk
    · have h2 := inv2 k hk (by omega) hPk
      omega
  · right
    refine ⟨h0, hlen, hsome, fun k hk hPk => ?_⟩
    by_cases hkl : (k : Int) < left
    · exact absurd hPk (inv1 k hk hkl)
    · exact (inv2 k hk (by omega) hPk).2

/-- Invariant proof for the first-match loop: on a name-sorted list it
returns `-1` exactly when nothing matches, and otherwise the index of the
leftmost entry whose lower-cased name has `p` as a prefix. -/
theorem bsPrefixGo_spec {stocks : List Stock} (p : List Char)
    (hs : stocks.Pairwise (fun a b => jsToLower a.name ≤ jsToLower b.name)) :
    ∀ (fuel : Nat) (left right fm : Int),
      0 ≤ left → right < (stocks.length : Int) → right - left + 1 ≤ (fuel : Int) →
      (∀ (k : Nat) (hk : k < stocks.length), (k : Int) < left →
        ¬ (p <+: jsToLower (stocks[k]).name)) →
      (∀ (k : Nat) (hk : k < stocks.length), right < (k : Int) →
        (p <+: jsToLower (stocks[k]).name) → 0 ≤ fm ∧ fm ≤ (k : Int)) →
      (fm = -1 ∨ (0 ≤ fm ∧ fm < (stocks.length : Int) ∧
        ∃ s, stocks[fm.toNat]? = some s ∧ p <+: jsToLower s.name)) →
      ((bsPrefixGo stocks p fuel left right fm = -1 ∧
          ∀ (k : Nat) (hk : k < stocks.length), ¬ (p <+: jsToLower (stocks[k]).name)) ∨
        (0 ≤ bsPrefixGo stocks p fuel left right fm ∧
          bsPrefixGo stocks p fuel left right fm < (stocks.length : Int) ∧
          (∃ s, stocks[(bsPrefixGo stocks p fuel left right fm).toNat]? = some s ∧
            p <+: jsToLower s.name) ∧
          ∀ (k : Nat) (hk : k < stocks.length), (p <+: jsToLower (stocks[k]).name) →
            bsPrefixGo stocks p fuel left right fm ≤ (k : Int))) := by
  intro fuel
  induction fuel with
  | zero =>
      intro left right fm h0 hlen hf inv1 inv2 inv3
      have hlr : right < left := by push_cast at hf; omega
      exact bsPrefixExit hlr inv1 inv2 inv3
  | succ fuel ih =>
      intro left right fm h0 hlen hf inv1 inv2 inv3
      by_cases hlr : left ≤ right
      · unfold bsPrefixGo
        rw [if_pos hlr]
        dsimp only
        have hfd : Int.fdiv (left + right) 2 = (left + right) / 2 :=
          Int.fdiv_eq_ediv _ (by norm_num)
        have hmb : left ≤ Int.fdiv (left + right) 2 ∧ Int.fdiv (left + right) 2 ≤ right := by
          rw [hfd]; omega
        have hmn : (Int.fdiv (left + right) 2).toNat < stocks.length := by omega
        rw [List.getElem?_eq_getElem hmn]
        dsimp only
        by_cases hP : p <+: jsToLower (stocks[(Int.fdiv (left + right) 2).toNat]).name
        · rw [if_pos hP]
          apply ih left (Int.fdiv (left + right) 2 - 1) (Int.fdiv (left + right) 2)
            h0 (by omega) (by push_cast at hf ⊢; omega) inv1
          · intro k hk hmk hPk
            refine ⟨by omega, by omega⟩
          · right
            refine ⟨by omega, by omega, stocks[(Int.fdiv (left + right) 2).toNat],
              List.getElem?_eq_getElem hmn, hP⟩
        · rw [if_neg hP]
          by_cases hlt : jsToLower (stocks[(Int.fdiv (left + right) 2).toNat]).name < p
          · rw [if_pos hlt]
            apply ih (Int.fdiv (left + right) 2 + 1) right fm
              (by omega) hlen (by push_cast at hf ⊢; omega)
            · intro k hk hkm hPk
              have hkm' : k ≤ (Int.fdiv (left + right) 2).toNat := by omega
              have hle := sorted_name_le hs hk hmn hkm'
              have hp := prefix_lex_le hPk
              exact lt_irrefl _ (lt_of_le_of_lt (hp.trans hle) hlt)
            · exact inv2
            · exact inv3
          · rw [if_neg hlt]
            have hple : p ≤ jsToLower (stocks[(Int.fdiv (left + right) 2).toNat]).name :=
              le_of_not_lt hlt
            have hplt : p < jsToLower (stocks[(Int.fdiv (left + right) 2).toNat]).name := by
              refine lt_of_le_of_ne hple (fun he => hP ⟨[], ?_⟩)
              rw [List.append_nil]
              exact he
            apply ih left (Int.fdiv (left + right) 2 - 1) fm
              h0 (by omega) (by push_cast at hf ⊢; omega) inv1
            · intro k hk hkm hPk
              exfalso
              have hkm' : (Int.fdiv (left + right) 2).toNat ≤ k := by omega
              have hle := sorted_name_le hs hmn hk hkm'
              have hlt2 := lex_lt_of_extension hP hplt hPk
              exact lt_irrefl _ (lt_of_le_of_lt hle hlt2)
            · exact inv3
      · have hgo : bsPrefixGo stocks p (fuel + 1) left right fm = fm := by
          unfold bsPrefixGo
          rw [if_neg hlr]
        rw [hgo]
        exact bsPrefixExit (by omega) inv1 inv2 inv3

/-- C4: on a list sorted (non-strictly) by lower-cased name,
`binarySearchByNamePrefix` returns exactly the entries whose lower-cased
names start with the lower-cased query — all of them and only them, in
input order — and the empty query returns the whole input unchanged (every
name has the empty prefix, so the filter keeps everything). -/
theorem binarySearchByNamePrefix_correct (stocks : List Stock) (pre : List Char)
    (hs : stocks.Pairwise (fun a b => jsToLower a.name ≤ jsToLower b.name)) :
    binarySearchByNamePrefix stocks pre =
      stocks.filter (fun s => decide (jsToLower pre <+: jsToLower s.name)) := by
  unfold binarySearchByNamePrefix
  by_cases hguard : pre = [] ∨ stocks = []
  · rw [if_pos hguard]
    rcases hguard with h | h
    · subst h
      symm
      rw [List.filter_eq_self]
      intro a _
      simp [jsToLower]
    · subst h
      simp
  · rw [if_neg hguard]
    push_neg at hguard
    obtain ⟨hpre, hstocks⟩ := hguard
    dsimp only
    have hspec := bsPrefixGo_spec (jsToLower pre) hs stocks.length 0
      ((stocks.length : Int) - 1) (-1) le_rfl (by push_cast; omega) (by push_cast; omega)
      (fun k hk hkl => absurd hkl (by omega))
      (fun k hk hrk _ => absurd hrk (by push_cast; omega))
      (Or.inl rfl)
    rcases hspec with ⟨hrm1, hnone⟩ | ⟨hr0, hrlen, ⟨s0, hs0, hPs0⟩, hmin⟩
    · rw [hrm1, if_pos (show (-1 : Int) = -1 from rfl)]
      symm
      rw [List.filter_eq_nil_iff]
      intro a ha hqa
      obtain ⟨k, hk, rfl⟩ := List.mem_iff_getElem.mp ha
      exact hnone k hk (by simpa using hqa)
    · rw [if_neg (by omega)]
      set q : Stock → Bool := fun s => decide (jsToLower pre <+: jsToLower s.name) with hq
      set r := bsPrefixGo stocks (jsToLower pre) stocks.length 0
        ((stocks.length : Int) - 1) (-1) with hrdef
      have hrn : r.toNat < stocks.length := by omega
      have hs0e : s0 = stocks[r.toNat] := by
        have h2 := List.getElem?_eq_getElem hrn
        rw [hs0] at h2
        exact (Option.some.injEq _ _).mp h2
      have htake : (stocks.take r.toNat).filter q = [] := by
        rw [List.filter_eq_nil_iff]
        intro a ha hqa
        obtain ⟨k, hk, hak⟩ := List.mem_iff_getElem.mp ha
        have hkj : k < r.toNat := by
          have h2 := hk
          rw [List.length_take] at h2
          omega
        have hklen : k < stocks.length := by omega
        have hae : a = stocks[k] := by
          rw [← hak]
          exact List.getElem_take _
        subst hae
        have hP : jsToLower pre <+: jsToLower (stocks[k]).name := by
          simpa [hq] using hqa
        have := hmin k hklen hP
        omega
      have hpair : (stocks.drop r.toNat).Pairwise (fun a b => q b = true → q a = true) := by
        apply List.pairwise_iff_getElem.mpr
        intro k1 k2 h1 h2 h12 hq2
        have hd : (stocks.drop r.toNat).length = stocks.length - r.toNat :=
          List.length_drop _ _
        have h1' : r.toNat + k1 < stocks.length := by omega
        have h2' : r.toNat + k2 < stocks.length := by omega
        simp only [List.getElem_drop] at hq2 ⊢
        have hPk2 : jsToLower pre <+: jsToLower (stocks[r.toNat + k2]).name := by
          simpa [hq] using hq2
        rw [hq]
        simp only [decide_eq_true_eq]
        by_contra hnP
        have hps0 : jsToLower pre ≤ jsToLower (stocks[r.toNat]).name := by
          have h3 := prefix_lex_le hPs0
          rwa [hs0e] at h3
        have hle1 : jsToLower (stocks[r.toNat]).name ≤
            jsToLower (stocks[r.toNat + k1]).name :=
          sorted_name_le hs hrn h1' (by omega)
        have hple := le_trans hps0 hle1
        have hne : jsToLower pre ≠ jsToLower (stocks[r.toNat + k1]).name := by
          intro he
          exact hnP ⟨[], by rw [List.append_nil]; exact he⟩
        have hplt := lt_of_le_of_ne hple hne
        have hlt2 := lex_lt_of_extension hnP hplt hPk2
        have hle2 := sorted_name_le hs h1' h2' (by omega)
        exact lt_irrefl _ (lt_of_le_of_lt hle2 hlt2)
      have hdrop := filter_eq_takeWhile_of_pairwise hpair
      calc (stocks.drop r.toNat).takeWhile q
          = (stocks.drop r.toNat).filter q := hdrop.symm
        _ = (stocks.take r.toNat).filter q ++ (stocks.drop r.toNat).filter q := by
            rw [htake]; rfl
        _ = (stocks.take r.toNat ++ stocks.drop r.toNat).filter q :=
            (List.filter_append _ _).symm
        _ = stocks.filter q := by rw [List.take_append_drop]

/-- Witness for C4: the name-sorted list Alphabet, Amazon, Apple,
Microsoft, Tesla with query `A` yields exactly the first three, in input
order. -/
theorem binarySearchByNamePrefix_correct_witness :
    binarySearchByNamePrefix
        [⟨['G'], ['A','l','p','h','a','b','e','t'], 1⟩,
         ⟨['A','M'], ['A','m','a','z','o','n'], 1⟩,
         ⟨['A','A'], ['A','p','p','l','e'], 1⟩,
         ⟨['M'], ['M','i','c','r','o','s','o','f','t'], 1⟩,
         ⟨['T'], ['T','e','s','l','a'], 1⟩]
        ['A'] =
      [⟨['G'], ['A','l','p','h','a','b','e','t'], 1⟩,
       ⟨['A','M'], ['A','m','a','z','o','n'], 1⟩,
       ⟨['A','A'], ['A','p','p','l','e'], 1⟩] :=
  (binarySearchByNamePrefix_correct
      [⟨['G'], ['A','l','p','h','a','b','e','t'], 1⟩,
       ⟨['A','M'], ['A','m','a','z','o','n'], 1⟩,
       ⟨['A','A'], ['A','p','p','l','e'], 1⟩,
       ⟨['M'], ['M','i','c','r','o','s','o','f','t'], 1⟩,
       ⟨['T'], ['T','e','s','l','a'], 1⟩]
      ['A'] (by decide)).trans (by decide)

/-- The sign of `localeCompare` is negative exactly for lexicographically
smaller strings. -/
theorem localeCompare_lt_iff (a b : List Char) : localeCompare a b < 0 ↔ a < b := by
  unfold localeCompare
  by_cases h1 : a < b
  · rw [if_pos h1]
    exact ⟨fun _ => h1, fun _ => by norm_num⟩
  · rw [if_neg h1]
    by_cases h2 : b < a
    · rw [if_pos h2]
      exact ⟨fun hc => by norm_num at hc, fun hc => absurd hc h1⟩
    · rw [if_neg h2]
      exact ⟨fun hc => by norm_num at hc, fun hc => absurd hc h1⟩

/-- The sign of `localeCompare` is nonpositive exactly for `≤`. -/
theorem localeCompare_nonpos_iff (a b : List Char) : localeCompare a b ≤ 0 ↔ a ≤ b := by
  unfold localeCompare
  by_cases h1 : a < b
  · rw [if_pos h1]
    exact ⟨fun _ => le_of_lt h1, fun _ => by norm_num⟩
  · rw [if_neg h1]
    by_cases h2 : b < a
    · rw [if_pos h2]
      exact ⟨fun hc => by norm_num at hc, fun hc => absurd h2 (not_lt.mpr hc)⟩
    · rw [if_neg h2]
      exact ⟨fun _ => le_of_not_lt h2, fun _ => le_rfl⟩

/-- The comparison of `findInsertionPoint` composes: strictly below `y`
and `y` at most `z` gives strictly below `z`. -/
theorem stockCompare_trans_lt {sortBy : SortBy} {x y z : Stock}
    (h1 : stockCompare sortBy x y < 0) (h2 : stockCompare sortBy y z ≤ 0) :
    stockCompare sortBy x z < 0 := by
  cases sortBy with
  | symbol =>
      simp only [stockCompare] at *
      rw [localeCompare_lt_iff] at h1 ⊢
      rw [localeCompare_nonpos_iff] at h2
      exact lt_of_lt_of_le h1 h2
  | name =>
      simp only [stockCompare] at *
      rw [localeCompare_lt_iff] at h1 ⊢
      rw [localeCompare_nonpos_iff] at h2
      exact lt_of_lt_of_le h1 h2
  | price =>
      simp only [stockCompare] at *
      linarith

/-- The comparison of `findInsertionPoint` flips: not strictly below means
at least, i.e. the reversed comparison is nonpositive. -/
theorem stockCompare_flip {sortBy : SortBy} {x y : Stock}
    (h : ¬ stockCompare sortBy x y < 0) : stockCompare sortBy y x ≤ 0 := by
  cases sortBy with
  | symbol =>
      simp only [stockCompare] at *
      rw [localeCompare_lt_iff] at h
      rw [localeCompare_nonpos_iff]
      exact le_of_not_lt h
  | name =>
      simp only [stockCompare] at *
      rw [localeCompare_lt_iff] at h
      rw [localeCompare_nonpos_iff]
      exact le_of_not_lt h
  | price =>
      simp only [stockCompare] at *
      linarith

/-- Decomposition of `insertIdx`: inserting at `n ≤ length` splits the
list around the new element. -/
theorem insertIdx_eq_take_cons_drop {α : Type} (a : α) :
    ∀ (n : Nat) (l : List α), n ≤ l.length →
      l.insertIdx n a = l.take n ++ a :: l.drop n := by
  intro n
  induction n with
  | zero => intro l _; rw [List.insertIdx_zero]; rfl
  | succ n ih =>
      intro l hl
      cases l with
      | nil => simp at hl
      | cons x xs =>
          rw [List.insertIdx_succ_cons, ih xs (by simpa using hl)]
          rfl

/-- Invariant proof for the `findInsertionPoint` loop: it returns the
boundary index separating the entries the candidate does not precede from
those it strictly precedes. -/
theorem fipGo_spec {stocks : List Stock} {stock : Stock} {sortBy : SortBy}
    (hs : stocks.Pairwise (fun a b => stockCompare sortBy a b ≤ 0)) :
    ∀ (fuel left right : Nat),
      left ≤ right → right ≤ stocks.length → right - left ≤ fuel →
      (∀ (k : Nat) (hk : k < stocks.length), k < left →
        ¬ (stockCompare sortBy stock (stocks[k]) < 0)) →
      (∀ (k : Nat) (hk : k < stocks.length), right ≤ k →
        stockCompare sortBy stock (stocks[k]) < 0) →
      (left ≤ fipGo stocks stock sortBy fuel left right ∧
        fipGo stocks stock sortBy fuel left right ≤ right ∧
        (∀ (k : Nat) (hk : k < stocks.length),
          k < fipGo stocks stock sortBy fuel left right →
          ¬ (stockCompare sortBy stock (stocks[k]) < 0)) ∧
        (∀ (k : Nat) (hk : k < stocks.length),
          fipGo stocks stock sortBy fuel left right ≤ k →
          stockCompare sortBy stock (stocks[k]) < 0)) := by
  intro fuel
  induction fuel with
  | zero =>
      intro left right hlr hrlen hf inv1 inv2
      have : left = right := by omega
      subst this
      exact ⟨le_rfl, le_rfl, inv1, inv2⟩
  | succ fuel ih =>
      intro left right hlr hrlen hf inv1 inv2
      by_cases hlt : left < right
      · unfold fipGo
        rw [if_pos hlt]
        dsimp only
        have hmb : left ≤ (left + right) / 2 ∧ (left + right) / 2 < right := by omega
        have hmn : (left + right) / 2 < stocks.length := by omega
        rw [List.getElem?_eq_getElem hmn]
        dsimp only
        by_cases hcmp : stockCompare sortBy stock (stocks[(left + right) / 2]) < 0
        · rw [if_pos hcmp]
          have hinv2 : ∀ (k : Nat) (hk : k < stocks.length), (left + right) / 2 ≤ k →
              stockCompare sortBy stock (stocks[k]) < 0 := by
            intro k hk hge
            rcases Nat.eq_or_lt_of_le hge with rfl | hgt
            · exact hcmp
            · have hpw := List.pairwise_iff_getElem.mp hs ((left + right) / 2) k hmn hk hgt
              exact stockCompare_trans_lt hcmp hpw
          obtain ⟨ha, hb, hc, hd⟩ := ih left ((left + right) / 2) (by omega) (by omega)
            (by omega) inv1 hinv2
          exact ⟨ha, by omega, hc, hd⟩
        · rw [if_neg hcmp]
          have hinv1 : ∀ (k : Nat) (hk : k < stocks.length), k < (left + right) / 2 + 1 →
              ¬ (stockCompare sortBy stock (stocks[k]) < 0) := by
            intro k hk hkm
            rcases Nat.eq_or_lt_of_le (show k ≤ (left + right) / 2 by omega) with rfl | hklt
            · exact hcmp
            · intro hc2
              have hpw := List.pairwise_iff_getElem.mp hs k ((left + right) / 2) hk hmn hklt
              exact hcmp (stockCompare_trans_lt hc2 hpw)
          obtain ⟨ha, hb, hc, hd⟩ := ih ((left + right) / 2 + 1) right (by omega) hrlen
            (by omega) hinv1 inv2
          exact ⟨by omega, hb, hc, hd⟩
      · have : left = right := by omega
        subst this
        have hgo : fipGo stocks stock sortBy (fuel + 1) left left = left := by
          unfold fipGo
          rw [if_neg hlt]
        rw [hgo]
        exact ⟨le_rfl, le_rfl, inv1, inv2⟩

/-- C9: inserting the candidate at the index returned by
`findInsertionPoint` keeps the list sorted under the comparator selected by
`sortBy`; and on the spec's example — symbols AAPL, AMZN, GOOGL, MSFT,
TSLA with candidate META sorted by symbol — the returned index is 3. -/
theorem findInsertionPoint_preserves_sorted (stocks : List Stock) (stock : Stock)
    (sortBy : SortBy)
    (hs : stocks.Pairwise (fun a b => stockCompare sortBy a b ≤ 0)) :
    (stocks.insertIdx (findInsertionPoint stocks stock sortBy) stock).Pairwise
        (fun a b => stockCompare sortBy a b ≤ 0) ∧
      findInsertionPoint
        [⟨['A','A','P','L'], ['a'], 1⟩, ⟨['A','M','Z','N'], ['b'], 1⟩,
         ⟨['G','O','O','G','L'], ['c'], 1⟩, ⟨['M','S','F','T'], ['d'], 1⟩,
         ⟨['T','S','L','A'], ['e'], 1⟩]
        ⟨['M','E','T','A'], ['f'], 1⟩ SortBy.symbol = 3 := by
  obtain ⟨h0, hlen, inv1, inv2⟩ := fipGo_spec hs stocks.length 0 stocks.length
    (Nat.zero_le _) le_rfl (by omega)
    (fun k hk hkl => absurd hkl (by omega))
    (fun k hk hrk => absurd hk (by omega))
  refine ⟨?_, by decide⟩
  have hr : findInsertionPoint stocks stock sortBy =
      fipGo stocks stock sortBy stocks.length 0 stocks.length := rfl
  rw [hr, insertIdx_eq_take_cons_drop _ _ _ hlen, List.pairwise_append]
  refine ⟨List.Pairwise.sublist (List.take_sublist _ _) hs, ?_, ?_⟩
  · rw [List.pairwise_cons]
    refine ⟨?_, List.Pairwise.drop hs⟩
    intro b hb
    obtain ⟨k, hk, hbk⟩ := List.mem_iff_getElem.mp hb
    have hd := List.length_drop (fipGo stocks stock sortBy stocks.length 0 stocks.length) stocks
    have hk' : fipGo stocks stock sortBy stocks.length 0 stocks.length + k <
        stocks.length := by omega
    rw [List.getElem_drop] at hbk
    subst hbk
    exact le_of_lt (inv2 _ hk' (by omega))
  · intro a ha b hb
    obtain ⟨k1, hk1, hak⟩ := List.mem_iff_getElem.mp ha
    have hk1' : k1 < fipGo stocks stock sortBy stocks.length 0 stocks.length := by
      have h2 := hk1
      rw [List.length_take] at h2
      omega
    have hk1len : k1 < stocks.length := by omega
    have hae : a = stocks[k1] := by
      rw [← hak]
      exact List.getElem_take _
    subst hae
    rcases List.mem_cons.mp hb with rfl | hb'
    · exact stockCompare_flip (inv1 k1 hk1len hk1')
    · obtain ⟨k2, hk2, hbk⟩ := List.mem_iff_getElem.mp hb'
      have hd := List.length_drop (fipGo stocks stock sortBy stocks.length 0 stocks.length)
        stocks
      have hk2' : fipGo stocks stock sortBy stocks.length 0 stocks.length + k2 <
          stocks.length := by omega
      rw [List.getElem_drop] at hbk
      subst hbk
      exact List.pairwise_iff_getElem.mp hs k1 _ hk1len hk2' (by omega)

/-- Witness for C9: inserting META into the symbol-sorted example list at
the returned index keeps it sorted by symbol. -/
theorem findInsertionPoint_preserves_sorted_witness :
    (([⟨['A','A','P','L'], ['a'], 1⟩, ⟨['A','M','Z','N'], ['b'], 1⟩,
        ⟨['G','O','O','G','L'], ['c'], 1⟩, ⟨['M','S','F','T'], ['d'], 1⟩,
        ⟨['T','S','L','A'], ['e'], 1⟩] : List Stock).insertIdx
        (findInsertionPoint
          [⟨['A','A','P','L'], ['a'], 1⟩, ⟨['A','M','Z','N'], ['b'], 1⟩,
           ⟨['G','O','O','G','L'], ['c'], 1⟩, ⟨['M','S','F','T'], ['d'], 1⟩,
           ⟨['T','S','L','A'], ['e'], 1⟩]
          ⟨['M','E','T','A'], ['f'], 1⟩ SortBy.symbol)
        ⟨['M','E','T','A'], ['f'], 1⟩).Pairwise
      (fun a b => stockCompare SortBy.symbol a b ≤ 0) :=
  (findInsertionPoint_preserves_sorted
      [⟨['A','A','P','L'], ['a'], 1⟩, ⟨['A','M','Z','N'], ['b'], 1⟩,
       ⟨['G','O','O','G','L'], ['c'], 1⟩, ⟨['M','S','F','T'], ['d'], 1⟩,
       ⟨['T','S','L','A'], ['e'], 1⟩]
      ⟨['M','E','T','A'], ['f'], 1⟩ SortBy.symbol (by decide)).1

/-- C2: starting idle, the calls `record(A, x1)`, `record(B, y)`,
`record(A, x2)` at times `t1 ≤ t2 ≤ t3` within one interval
(`t3 < t1 + throttleMs`) arm exactly one timer, whose deadline stays fixed
at `t1 + throttleMs` from the first call on — the later calls neither
re-arm nor extend it — so the flush callback runs exactly once for the
cycle, no earlier than one interval after the first record; the fired
batch is exactly `{A ↦ x2, B ↦ y}` (last write per key wins, insertion
order per first write), and afterwards the batch is empty and the instance
is back to the idle initial state. -/
theorem throttledUpdater_coalesces {V : Type} (throttleMs t1 t2 t3 : Nat)
    (A B : String) (x1 x2 y : V) (hAB : A ≠ B)
    (h12 : t1 ≤ t2) (h23 : t2 ≤ t3) (hin : t3 < t1 + throttleMs) :
    (ThrottledUpdater.record throttleMs t1 A x1
        (ThrottledUpdater.initial V)).timerDeadline = some (t1 + throttleMs) ∧
    (ThrottledUpdater.record throttleMs t2 B y
      (ThrottledUpdater.record throttleMs t1 A x1
        (ThrottledUpdater.initial V))).timerDeadline = some (t1 + throttleMs) ∧
    (ThrottledUpdater.record throttleMs t3 A x2
      (ThrottledUpdater.record throttleMs t2 B y
        (ThrottledUpdater.record throttleMs t1 A x1
          (ThrottledUpdater.initial V)))).timerDeadline = some (t1 + throttleMs) ∧
    (ThrottledUpdater.record throttleMs t3 A x2
      (ThrottledUpdater.record throttleMs t2 B y
        (ThrottledUpdater.record throttleMs t1 A x1
          (ThrottledUpdater.initial V)))).isScheduled = true ∧
    (ThrottledUpdater.fire (ThrottledUpdater.record throttleMs t3 A x2
      (ThrottledUpdater.record throttleMs t2 B y
        (ThrottledUpdater.record throttleMs t1 A x1
          (ThrottledUpdater.initial V))))).1 = [(A, x2), (B, y)] ∧
    mapGet (ThrottledUpdater.fire (ThrottledUpdater.record throttleMs t3 A x2
      (ThrottledUpdater.record throttleMs t2 B y
        (ThrottledUpdater.record throttleMs t1 A x1
          (ThrottledUpdater.initial V))))).1 A = some x2 ∧
    mapGet (ThrottledUpdater.fire (ThrottledUpdater.record throttleMs t3 A x2
      (ThrottledUpdater.record throttleMs t2 B y
        (ThrottledUpdater.record throttleMs t1 A x1
          (ThrottledUpdater.initial V))))).1 B = some y ∧
    (ThrottledUpdater.fire (ThrottledUpdater.record throttleMs t3 A x2
      (ThrottledUpdater.record throttleMs t2 B y
        (ThrottledUpdater.record throttleMs t1 A x1
          (ThrottledUpdater.initial V))))).2 = ThrottledUpdater.initial V := by
  have hBA : B ≠ A := fun h => hAB h.symm
  have hs1 : ThrottledUpdater.record throttleMs t1 A x1 (ThrottledUpdater.initial V) =
      ⟨[(A, x1)], true, some (t1 + throttleMs)⟩ := by
    simp [ThrottledUpdater.record, ThrottledUpdater.initial, mapSet]
  have hs2 : ThrottledUpdater.record throttleMs t2 B y
      (ThrottledUpdater.record throttleMs t1 A x1 (ThrottledUpdater.initial V)) =
      ⟨[(A, x1), (B, y)], true, some (t1 + throttleMs)⟩ := by
    rw [hs1]
    simp [ThrottledUpdater.record, mapSet, hAB]
  have hs3 : ThrottledUpdater.record throttleMs t3 A x2
      (ThrottledUpdater.record throttleMs t2 B y
        (ThrottledUpdater.record throttleMs t1 A x1 (ThrottledUpdater.initial V))) =
      ⟨[(A, x2), (B, y)], true, some (t1 + throttleMs)⟩ := by
    rw [hs2]
    simp [ThrottledUpdater.record, mapSet, hBA]
  refine ⟨by rw [hs1], by rw [hs2], by rw [hs3], by rw [hs3], by rw [hs3]; rfl, ?_, ?_,
    by rw [hs3]; rfl⟩
  · rw [hs3]
    simp [ThrottledUpdater.fire, mapGet, List.find?]
  · rw [hs3]
    simp [ThrottledUpdater.fire, mapGet, List.find?, hAB]

/-- Witness for C2 at interval 250 with records at times 0, 10, 20. -/
theorem throttledUpdater_coalesces_witness :
    (ThrottledUpdater.record 250 20 "AAPL" "x2"
      (ThrottledUpdater.record 250 10 "MSFT" "y"
        (ThrottledUpdater.record 250 0 "AAPL" "x1"
          (ThrottledUpdater.initial String)))).timerDeadline = some 250 ∧
    (ThrottledUpdater.fire (ThrottledUpdater.record 250 20 "AAPL" "x2"
      (ThrottledUpdater.record 250 10 "MSFT" "y"
        (ThrottledUpdater.record 250 0 "AAPL" "x1"
          (ThrottledUpdater.initial String))))).1 = [("AAPL", "x2"), ("MSFT", "y")] ∧
    (ThrottledUpdater.fire (ThrottledUpdater.record 250 20 "AAPL" "x2"
      (ThrottledUpdater.record 250 10 "MSFT" "y"
        (ThrottledUpdater.record 250 0 "AAPL" "x1"
          (ThrottledUpdater.initial String))))).2 = ThrottledUpdater.initial String := by
  have h := throttledUpdater_coalesces 250 0 10 20 "AAPL" "MSFT" "x1" "x2" "y"
    (by decide) (by decide) (by decide) (by decide)
  exact ⟨h.2.2.1, h.2.2.2.2.1, h.2.2.2.2.2.2.2⟩
